import Mathlib

/-!
Shallow embedding of the Go source file internal/project/auto/golang.go of
the kres repository: the detector DetectGolang (which probes the filesystem
under a root path and fills the shared meta.Options descriptor), the helper
hasGoFiles, and the graph builder BuildGolang (which wires the Go pipeline
subgraph of dag.Node values).  The filesystem is modelled as a read-only
snapshot giving the result of every IO operation the code performs, and the
result of each function is the Go return value paired with the (mutated)
options record.
-/

namespace Kres

/-- A filesystem/IO error, as far as the Go code distinguishes errors:
os.IsNotExist separates not-exist errors from every other IO error. -/
inductive Err where
  | notExist
  | other
deriving DecidableEq

/-- A directory entry as returned by ioutil.ReadDir: its name and IsDir flag. -/
structure Entry where
  name : String
  isDir : Bool
deriving DecidableEq

instance instDecEqExcept {ε α : Type} [DecidableEq ε] [DecidableEq α] :
    DecidableEq (Except ε α)
  | .error x, .error y =>
    match decEq x y with
    | isTrue h => isTrue (by rw [h])
    | isFalse h => isFalse fun c => h (by injection c)
  | .error _, .ok _ => isFalse fun c => Except.noConfusion c
  | .ok _, .error _ => isFalse fun c => Except.noConfusion c
  | .ok x, .ok y =>
    match decEq x y with
    | isTrue h => isTrue (by rw [h])
    | isFalse h => isFalse fun c => h (by injection c)

/-- Read-only snapshot of the filesystem under rootPath, giving the result
of each IO operation DetectGolang performs.  Relative paths are passed as
strings, "" standing for rootPath itself.

openGoMod is the outcome of os.Open on rootPath/go.mod (none = opened);
readGoMod is the outcome of ioutil.ReadAll on the opened file.

dirExists is modelled from the spec: the helper directoryExists of this
package is not among the given sources; per the spec it checks whether the
named directory exists directly under root, and it may fail with an IO
error (any I/O error other than not-exist during existence checks
propagates).

modulePath models the external library function modfile.ModulePath applied
to the bytes read from go.mod. -/
structure FS where
  openGoMod : Option Err
  readGoMod : Except Err String
  dirExists : String → Except Err Bool
  readDir : String → Except Err (List Entry)
  modulePath : String → String

/-- The fields of the shared meta.Options descriptor that DetectGolang
reads or writes. -/
structure Options where
  CanonicalPath : String
  Directories : List String
  GoDirectories : List String
  SourceFiles : List String
  GoSourceFiles : List String
  VersionPackage : String
  Commands : List String
deriving DecidableEq

/-- The all-empty descriptor a detection run starts from. -/
def emptyOptions : Options := ⟨"", [], [], [], [], "", []⟩

/-- Models strings.HasSuffix of the Go standard library: does s end with
suf?  (Stated on the character lists underlying the strings.) -/
def goHasSuffix (s suf : String) : Bool := suf.data.isSuffixOf s.data

/-- hasGoFiles: ReadDir the path and report whether some non-directory
entry has the suffix ".go". -/
def hasGoFiles (fs : FS) (rel : String) : Except Err Bool :=
  match fs.readDir rel with
  | .error e => .error e
  | .ok contents => .ok (contents.any fun item => !item.isDir && goHasSuffix item.name ".go")

/-- One stage of DetectGolang: transforms the options, possibly reporting
an error; on error the partially updated options are kept, since the Go
code mutates the options in place before an early return. -/
abbrev DStep := Options → Options × Option Err

/-- Sequencing of detection stages with early exit on error. -/
def andThen (s1 s2 : DStep) : DStep := fun o =>
  match s1 o with
  | (o1, some e) => (o1, some e)
  | (o1, none) => s2 o1

/-- Sets CanonicalPath from the parsed go.mod contents. -/
def stepCanonical (fs : FS) (contents : String) : DStep := fun o =>
  ({ o with CanonicalPath := fs.modulePath contents }, none)

/-- The fixed ordered list of conventional source directory names. -/
def convDirs : List String := ["src", "internal", "pkg", "cmd"]

/-- The loop over the conventional source directory names: each one that
exists is appended to both Directories and GoDirectories; a failing
existence check aborts the run. -/
def step2Loop (fs : FS) : List String → DStep
  | [] => fun o => (o, none)
  | d :: ds => fun o =>
    match fs.dirExists d with
    | .error e => (o, some e)
    | .ok true =>
      step2Loop fs ds
        { o with Directories := o.Directories ++ [d],
                 GoDirectories := o.GoDirectories ++ [d] }
    | .ok false => step2Loop fs ds o

def stepSrcDirs (fs : FS) : DStep := step2Loop fs convDirs

/-- The fallback loop over the top-level entries: any directory directly
containing a Go file becomes a source directory. -/
def fallbackLoop (fs : FS) : List Entry → DStep
  | [] => fun o => (o, none)
  | item :: rest => fun o =>
    if !item.isDir then fallbackLoop fs rest o
    else
      match hasGoFiles fs item.name with
      | .error e => (o, some e)
      | .ok true =>
        fallbackLoop fs rest
          { o with Directories := o.Directories ++ [item.name],
                   GoDirectories := o.GoDirectories ++ [item.name] }
      | .ok false => fallbackLoop fs rest o

/-- The fallback scan, fired only when no conventional directory was found. -/
def stepFallback (fs : FS) : DStep := fun o =>
  if o.GoDirectories.isEmpty then
    match fs.readDir "" with
    | .error e => (o, some e)
    | .ok topLevel => fallbackLoop fs topLevel o
  else (o, none)

/-- Per-entry update of the loop recording loose Go files at the root. -/
def rootFileFold (o : Options) (item : Entry) : Options :=
  if !item.isDir && goHasSuffix item.name ".go" then
    { o with SourceFiles := o.SourceFiles ++ [item.name],
             GoSourceFiles := o.GoSourceFiles ++ [item.name] }
  else o

/-- If the root itself directly contains Go files, record each such file
name in both SourceFiles and GoSourceFiles. -/
def stepRootFiles (fs : FS) : DStep := fun o =>
  match hasGoFiles fs "" with
  | .error e => (o, some e)
  | .ok false => (o, none)
  | .ok true =>
    match fs.readDir "" with
    | .error e => (o, some e)
    | .ok contents => (contents.foldl rootFileFold o, none)

/-- Unconditionally append "go.mod" and "go.sum" to SourceFiles. -/
def stepGoModFiles : DStep := fun o =>
  ({ o with SourceFiles := o.SourceFiles ++ ["go.mod", "go.sum"] }, none)

/-- Models path.Join of the Go standard library on the inputs occurring
here: a clean (possibly empty) module path joined with a clean relative
path. -/
def goPathJoin (a b : String) : String := if a = "" then b else a ++ "/" ++ b

/-- The fixed ordered list of version package candidate directories. -/
def versionCandidates : List String := ["pkg/version", "internal/version"]

/-- The loop over the version package candidates: each existing candidate
(re)assigns VersionPackage; the loop has no early exit. -/
def versionLoop (fs : FS) : List String → DStep
  | [] => fun o => (o, none)
  | c :: cs => fun o =>
    match fs.dirExists c with
    | .error e => (o, some e)
    | .ok true =>
      versionLoop fs cs { o with VersionPackage := goPathJoin o.CanonicalPath c }
    | .ok false => versionLoop fs cs o

def stepVersion (fs : FS) : DStep := versionLoop fs versionCandidates

/-- Per-entry update of the command discovery loop. -/
def commandFold (o : Options) (dir : Entry) : Options :=
  if dir.isDir then { o with Commands := o.Commands ++ [dir.name] } else o

/-- If a cmd directory exists, record the name of each of its immediate
subdirectories in Commands. -/
def stepCommands (fs : FS) : DStep := fun o =>
  match fs.dirExists "cmd" with
  | .error e => (o, some e)
  | .ok false => (o, none)
  | .ok true =>
    match fs.readDir "cmd" with
    | .error e => (o, some e)
    | .ok dirs => (dirs.foldl commandFold o, none)

/-- The body of DetectGolang once go.mod has been opened successfully:
read it, then run the seven stages in source order. -/
def detectSteps (fs : FS) (contents : String) : DStep :=
  andThen (stepCanonical fs contents)
    (andThen (stepSrcDirs fs)
      (andThen (stepFallback fs)
        (andThen (stepRootFiles fs)
          (andThen stepGoModFiles
            (andThen (stepVersion fs) (stepCommands fs))))))

def detectBody (fs : FS) : DStep := fun o =>
  match fs.readGoMod with
  | .error e => (o, some e)
  | .ok contents => detectSteps fs contents o

/-- DetectGolang: returns the Go pair (applicable, error) together with
the options record as mutated by the run.  A failed open of go.mod yields
(false, nil) when the error is not-exist, (false, err) otherwise; every
return after a successful open carries applicable = true. -/
def DetectGolang (fs : FS) (options : Options) : (Bool × Option Err) × Options :=
  match fs.openGoMod with
  | some e =>
    if e = Err.notExist then ((false, none), options) else ((false, some e), options)
  | none => ((true, (detectBody fs options).2), (detectBody fs options).1)

/-! ## The graph builder -/

/-- Modelled from the spec: the concrete node constructors used by
BuildGolang (toolchain, golangci-lint, gofumpt, the lint aggregation
target, unit tests, the coverage uploader, per-command build and image,
the FHS and CA-certificates infrastructure nodes, and the Drone adaptation
of the unit-test node) are not among the given sources; per the spec each
factory just returns a fresh pipeline node, so a node is represented by
its kind tag. -/
inductive NodeKind where
  | toolchain
  | golangciLint
  | gofumpt
  | lint
  | unitTests
  | codeCov (inputPath : String)
  | build (name dir : String)
  | image (name : String)
  | fhs
  | caCerts
  | drone
deriving DecidableEq

/-- Modelled from the spec: a dag.Node (the interface is not among the
given sources) has an opaque identity, here a natural number allocated in
construction order, and an ordered sequence of inputs - the upstream
dependency edges added by AddInput. -/
structure Node where
  id : Nat
  kind : NodeKind
  inputs : List Nat
deriving DecidableEq

/-- Models filepath.Join of the Go standard library on clean relative
components, as used for the per-command build directory. -/
def goFilepathJoin (a b : String) : String := a ++ "/" ++ b

/-- The six nodes constructed before the command loop, with identities
f .. f+5: the toolchain (inputs: the upstream identities followed by the
two linters, which are injected into the toolchain build), golangci-lint,
gofumpt, the lint aggregation node, the unit-test node and the coverage
node with its fixed artifact path. -/
def mainNodes (upstream : List Nat) (f : Nat) : List Node :=
  [⟨f, NodeKind.toolchain, upstream ++ [f + 1, f + 2]⟩,
   ⟨f + 1, NodeKind.golangciLint, []⟩,
   ⟨f + 2, NodeKind.gofumpt, []⟩,
   ⟨f + 3, NodeKind.lint, [f, f + 1, f + 2]⟩,
   ⟨f + 4, NodeKind.unitTests, [f]⟩,
   ⟨f + 5, NodeKind.codeCov "coverage.txt", [f + 4]⟩]

/-- The five nodes constructed for one command, with identities f .. f+4:
the build node (depending on the toolchain t), fresh FHS and
CA-certificates nodes, the Drone adaptation of the unit-test node u, and
the image node (depending on the build node, FHS, CA-certificates, the
shared lint node l, and the Drone adaptation, in AddInput order). -/
def cmdNodes (f t l u : Nat) (cmd : String) : List Node :=
  [⟨f, NodeKind.build cmd (goFilepathJoin "cmd" cmd), [t]⟩,
   ⟨f + 1, NodeKind.fhs, []⟩,
   ⟨f + 2, NodeKind.caCerts, []⟩,
   ⟨f + 3, NodeKind.drone, [u]⟩,
   ⟨f + 4, NodeKind.image cmd, [f, f + 1, f + 2, l, f + 3]⟩]

/-- The command loop of BuildGolang: five fresh nodes per command, in
command order. -/
def buildCmds (t l u : Nat) : Nat → List String → List Node
  | _, [] => []
  | f, c :: cs => cmdNodes f t l u c ++ buildCmds t l u (f + 5) cs

/-- The identities appended to the output list by the command loop: the
build node and the image node of each command, in command order. -/
def cmdOutputs : Nat → List String → List Nat
  | _, [] => []
  | f, _ :: cs => f :: (f + 4) :: cmdOutputs (f + 5) cs

/-- BuildGolang: constructs the store of nodes (identities allocated from
f upwards) and the returned outputs - lint, unit tests, coverage, then the
build/image pair of every command - and never reports an error. -/
def BuildGolang (opts : Options) (upstream : List Nat) (f : Nat) :
    (List Node × List Nat) × Option Err :=
  ((mainNodes upstream f ++ buildCmds f (f + 3) (f + 4) (f + 6) opts.Commands,
    [f + 3, f + 4, f + 5] ++ cmdOutputs (f + 6) opts.Commands), none)

/-! ## Sequencing and preservation infrastructure for the detector -/

theorem andThen_ok {s1 s2 : DStep} {o o2 : Options}
    (h : andThen s1 s2 o = (o2, none)) :
    ∃ o1, s1 o = (o1, none) ∧ s2 o1 = (o2, none) := by
  unfold andThen at h
  rcases h1 : s1 o with ⟨o1, e⟩
  rw [h1] at h
  cases e with
  | some e => simp at h
  | none => exact ⟨o1, rfl, h⟩

theorem andThen_err {s1 s2 : DStep} {o o1 : Options}
    (h : s1 o = (o1, none)) : andThen s1 s2 o = s2 o1 := by
  unfold andThen
  rw [h]

/-- s leaves the field proj of the options unchanged (also on its error
exits). -/
def Preserves {α : Type} (proj : Options → α) (s : DStep) : Prop :=
  ∀ o, proj ((s o).1) = proj o

theorem andThen_pres {α : Type} {proj : Options → α} {s1 s2 : DStep}
    (h1 : Preserves proj s1) (h2 : Preserves proj s2) :
    Preserves proj (andThen s1 s2) := by
  intro o
  unfold andThen
  rcases h : s1 o with ⟨o1, e⟩
  have hp : proj o1 = proj o := by
    have := h1 o
    rw [h] at this
    exact this
  cases e with
  | some e => exact hp
  | none => exact (h2 o1).trans hp

theorem foldl_pres {α β : Type} (proj : Options → β) (g : Options → α → Options)
    (h : ∀ o x, proj (g o x) = proj o) :
    ∀ (l : List α) (o : Options), proj (List.foldl g o l) = proj o := by
  intro l
  induction l with
  | nil => intro o; rfl
  | cons x xs ih => intro o; rw [List.foldl_cons, ih, h]

theorem step2Loop_pres {α : Type} (proj : Options → α) (fs : FS)
    (hp : ∀ o d, proj { o with Directories := o.Directories ++ [d],
                               GoDirectories := o.GoDirectories ++ [d] } = proj o) :
    ∀ ds, Preserves proj (step2Loop fs ds) := by
  intro ds
  induction ds with
  | nil => intro o; rfl
  | cons d ds ih =>
    intro o
    unfold step2Loop
    rcases h : fs.dirExists d with e | b
    · rfl
    · cases b with
      | false => exact ih o
      | true => exact (ih _).trans (hp o d)

theorem fallbackLoop_pres {α : Type} (proj : Options → α) (fs : FS)
    (hp : ∀ o d, proj { o with Directories := o.Directories ++ [d],
                               GoDirectories := o.GoDirectories ++ [d] } = proj o) :
    ∀ items, Preserves proj (fallbackLoop fs items) := by
  intro items
  induction items with
  | nil => intro o; rfl
  | cons item rest ih =>
    intro o
    unfold fallbackLoop
    cases hd : item.isDir with
    | false => simpa [hd] using ih o
    | true =>
      rcases h : hasGoFiles fs item.name with e | b
      · simp [hd, h]
      · cases b with
        | false => simpa [hd, h] using ih o
        | true => simpa [hd, h] using (ih _).trans (hp o item.name)

theorem stepFallback_pres {α : Type} (proj : Options → α) (fs : FS)
    (hp : ∀ o d, proj { o with Directories := o.Directories ++ [d],
                               GoDirectories := o.GoDirectories ++ [d] } = proj o) :
    Preserves proj (stepFallback fs) := by
  intro o
  unfold stepFallback
  cases he : o.GoDirectories.isEmpty with
  | false => simp [he]
  | true =>
    rcases h : fs.readDir "" with e | topLevel
    · simp [he, h]
    · simpa [he, h] using fallbackLoop_pres proj fs hp topLevel o

theorem stepRootFiles_pres {α : Type} (proj : Options → α) (fs : FS)
    (hp : ∀ o x, proj (rootFileFold o x) = proj o) :
    Preserves proj (stepRootFiles fs) := by
  intro o
  unfold stepRootFiles
  rcases h : hasGoFiles fs "" with e | b
  · rfl
  · cases b with
    | false => rfl
    | true =>
      rcases h2 : fs.readDir "" with e | contents
      · rfl
      · exact foldl_pres proj rootFileFold hp contents o

theorem versionLoop_pres {α : Type} (proj : Options → α) (fs : FS)
    (hp : ∀ o v, proj { o with VersionPackage := v } = proj o) :
    ∀ cs, Preserves proj (versionLoop fs cs) := by
  intro cs
  induction cs with
  | nil => intro o; rfl
  | cons c cs ih =>
    intro o
    unfold versionLoop
    rcases h : fs.dirExists c with e | b
    · rfl
    · cases b with
      | false => exact ih o
      | true => exact (ih _).trans (hp o _)

theorem stepCommands_pres {α : Type} (proj : Options → α) (fs : FS)
    (hp : ∀ o x, proj (commandFold o x) = proj o) :
    Preserves proj (stepCommands fs) := by
  intro o
  unfold stepCommands
  rcases h : fs.dirExists "cmd" with e | b
  · rfl
  · cases b with
    | false => rfl
    | true =>
      rcases h2 : fs.readDir "cmd" with e | dirs
      · rfl
      · exact foldl_pres proj commandFold hp dirs o

/-- Does the existence check of d under root succeed with true? -/
def existsTrue (fs : FS) (d : String) : Bool :=
  match fs.dirExists d with
  | .ok true => true
  | _ => false

/-- When every existence check in the list succeeds, the conventional
directory loop appends exactly the existing names, in list order, to both
Directories and GoDirectories, and reports no error. -/
theorem step2Loop_ok (fs : FS) :
    ∀ ds, (∀ d ∈ ds, ∃ b, fs.dirExists d = Except.ok b) →
    ∀ o, step2Loop fs ds o =
      ({ o with Directories := o.Directories ++ ds.filter (existsTrue fs),
                GoDirectories := o.GoDirectories ++ ds.filter (existsTrue fs) }, none) := by
  intro ds
  induction ds with
  | nil => intro _ o; simp [step2Loop]
  | cons d ds ih =>
    intro hall o
    obtain ⟨b, hb⟩ := hall d (List.mem_cons_self d ds)
    have hrest : ∀ x ∈ ds, ∃ c, fs.dirExists x = Except.ok c :=
      fun x hx => hall x (List.mem_cons_of_mem d hx)
    unfold step2Loop
    rw [hb]
    cases b with
    | true =>
      have hf : existsTrue fs d = true := by unfold existsTrue; rw [hb]
      rw [ih hrest]
      simp [List.filter_cons, hf, List.append_assoc]
    | false =>
      have hf : existsTrue fs d = false := by unfold existsTrue; rw [hb]
      simp only [List.filter_cons, hf, Bool.false_eq_true, if_false]
      exact ih hrest o

/-- The tail of the detection pipeline after the fallback stage. -/
def tailSteps (fs : FS) : DStep :=
  andThen (stepRootFiles fs)
    (andThen stepGoModFiles (andThen (stepVersion fs) (stepCommands fs)))

theorem tailSteps_dirs (fs : FS) : Preserves Options.Directories (tailSteps fs) :=
  andThen_pres
    (stepRootFiles_pres Options.Directories fs (fun o x => by unfold rootFileFold; split <;> rfl))
    (andThen_pres (fun _ => rfl)
      (andThen_pres (versionLoop_pres Options.Directories fs (fun _ _ => rfl) versionCandidates)
        (stepCommands_pres Options.Directories fs (fun o x => by unfold commandFold; split <;> rfl))))

theorem tailSteps_goDirs (fs : FS) : Preserves Options.GoDirectories (tailSteps fs) :=
  andThen_pres
    (stepRootFiles_pres Options.GoDirectories fs (fun o x => by unfold rootFileFold; split <;> rfl))
    (andThen_pres (fun _ => rfl)
      (andThen_pres (versionLoop_pres Options.GoDirectories fs (fun _ _ => rfl) versionCandidates)
        (stepCommands_pres Options.GoDirectories fs (fun o x => by unfold commandFold; split <;> rfl))))

/-- C1: on a root where at least one conventional source directory
exists (and all four existence checks succeed), the whole detection run
gives the descriptor exactly the existing conventional names, in the
fixed list order, as both Directories and GoDirectories - whatever the
directory listings contain, so the fallback scan never contributes. -/
theorem detect_conventional_sources_exclusive (fs : FS) (contents : String)
    (hopen : fs.openGoMod = none) (hread : fs.readGoMod = Except.ok contents)
    (hok : ∀ d ∈ convDirs, ∃ b, fs.dirExists d = Except.ok b)
    (hex : ∃ d ∈ convDirs, fs.dirExists d = Except.ok true) :
    (DetectGolang fs emptyOptions).2.Directories = convDirs.filter (existsTrue fs) ∧
    (DetectGolang fs emptyOptions).2.GoDirectories = convDirs.filter (existsTrue fs) := by
  have hD : DetectGolang fs emptyOptions =
      ((true, (detectBody fs emptyOptions).2), (detectBody fs emptyOptions).1) := by
    unfold DetectGolang
    rw [hopen]
  have hB : detectBody fs emptyOptions = detectSteps fs contents emptyOptions := by
    unfold detectBody
    rw [hread]
  have hc : stepCanonical fs contents emptyOptions =
      (⟨fs.modulePath contents, [], [], [], [], "", []⟩, none) := rfl
  have h2 : stepSrcDirs fs ⟨fs.modulePath contents, [], [], [], [], "", []⟩ =
      (⟨fs.modulePath contents, convDirs.filter (existsTrue fs),
        convDirs.filter (existsTrue fs), [], [], "", []⟩, none) := by
    unfold stepSrcDirs
    rw [step2Loop_ok fs convDirs hok]
    rfl
  rcases hex with ⟨d, hd, ht⟩
  have hdf : d ∈ convDirs.filter (existsTrue fs) :=
    List.mem_filter.mpr ⟨hd, by unfold existsTrue; rw [ht]⟩
  have hne : (convDirs.filter (existsTrue fs)).isEmpty = false := by
    cases hF : convDirs.filter (existsTrue fs) with
    | nil => rw [hF] at hdf; cases hdf
    | cons a l => rfl
  have hfb : stepFallback fs
      ⟨fs.modulePath contents, convDirs.filter (existsTrue fs),
        convDirs.filter (existsTrue fs), [], [], "", []⟩ =
      (⟨fs.modulePath contents, convDirs.filter (existsTrue fs),
        convDirs.filter (existsTrue fs), [], [], "", []⟩, none) := by
    unfold stepFallback
    simp only [hne]
    rfl
  have hchain : detectSteps fs contents emptyOptions =
      tailSteps fs
        ⟨fs.modulePath contents, convDirs.filter (existsTrue fs),
          convDirs.filter (existsTrue fs), [], [], "", []⟩ := by
    unfold detectSteps
    rw [andThen_err hc, andThen_err h2, andThen_err hfb]
    rfl
  rw [hD, hB, hchain]
  exact ⟨tailSteps_dirs fs _, tailSteps_goDirs fs _⟩

/-- A root with go.mod declaring module m, a pkg directory, and a
non-conventional directory named other that directly contains a Go file:
the fallback would pick other up, but must not run. -/
def fsW1 : FS :=
  { openGoMod := none
    readGoMod := Except.ok "module m"
    dirExists := fun d => Except.ok (d == "pkg")
    readDir := fun rel =>
      if rel == "" then Except.ok [⟨"pkg", true⟩, ⟨"other", true⟩]
      else if rel == "other" then Except.ok [⟨"x.go", false⟩]
      else Except.ok []
    modulePath := fun _ => "m" }

theorem detect_conventional_sources_witness :
    (DetectGolang fsW1 emptyOptions).2.Directories = convDirs.filter (existsTrue fsW1) ∧
    (DetectGolang fsW1 emptyOptions).2.GoDirectories = convDirs.filter (existsTrue fsW1) :=
  detect_conventional_sources_exclusive fsW1 "module m" rfl rfl
    (fun d _ => ⟨d == "pkg", rfl⟩) ⟨"pkg", by decide, by decide⟩

/-- Transport of a preserved field through one stage's result. -/
theorem pres_out {α : Type} {proj : Options → α} {s : DStep} {o o1 : Options}
    {e : Option Err} (hs : s o = (o1, e)) (hp : Preserves proj s) :
    proj o1 = proj o := by
  have h := hp o
  rw [hs] at h
  exact h

theorem detect_eq_notExist (fs : FS) (o : Options)
    (h : fs.openGoMod = some Err.notExist) :
    DetectGolang fs o = ((false, none), o) := by
  unfold DetectGolang
  rw [h]
  rfl

theorem detect_eq_openErr (fs : FS) (o : Options) (e : Err)
    (h : fs.openGoMod = some e) (hne : e ≠ Err.notExist) :
    DetectGolang fs o = ((false, some e), o) := by
  unfold DetectGolang
  rw [h]
  show (if e = Err.notExist then ((false, none), o) else ((false, some e), o)) =
    ((false, some e), o)
  rw [if_neg hne]

/-- C4: for every root path at which go.mod does not exist, detection
returns applicable = false with no error and leaves the descriptor
unmodified in every field. -/
theorem detect_no_manifest_not_applicable (fs : FS) (o : Options)
    (h : fs.openGoMod = some Err.notExist) :
    DetectGolang fs o = ((false, none), o) :=
  detect_eq_notExist fs o h

def fsNoManifest : FS :=
  { openGoMod := some Err.notExist
    readGoMod := Except.ok ""
    dirExists := fun _ => Except.ok false
    readDir := fun _ => Except.ok []
    modulePath := fun _ => "" }

theorem detect_no_manifest_witness :
    DetectGolang fsNoManifest emptyOptions = ((false, none), emptyOptions) :=
  detect_no_manifest_not_applicable fsNoManifest emptyOptions rfl

/-- C9: an open failure other than not-exist is returned with
applicable = false and the descriptor unmodified; applicable = true is
reported exactly when go.mod was opened successfully, and after that
point every return carries applicable = true. -/
theorem detect_error_applicability (fs : FS) (o : Options) :
    (∀ e, fs.openGoMod = some e → e ≠ Err.notExist →
      DetectGolang fs o = ((false, some e), o)) ∧
    (fs.openGoMod = none → (DetectGolang fs o).1.1 = true) ∧
    ((DetectGolang fs o).1.1 = true → fs.openGoMod = none) := by
  refine ⟨?_, ?_, ?_⟩
  · intro e he hne
    exact detect_eq_openErr fs o e he hne
  · intro h
    unfold DetectGolang
    rw [h]
  · intro h
    cases hh : fs.openGoMod with
    | none => rfl
    | some e =>
      by_cases he : e = Err.notExist
      · rw [detect_eq_notExist fs o (he ▸ hh)] at h
        simp at h
      · rw [detect_eq_openErr fs o e hh he] at h
        simp at h

def fsOpenErr : FS :=
  { openGoMod := some Err.other
    readGoMod := Except.ok ""
    dirExists := fun _ => Except.ok false
    readDir := fun _ => Except.ok []
    modulePath := fun _ => "" }

theorem detect_error_applicability_witness :
    DetectGolang fsOpenErr emptyOptions = ((false, some Err.other), emptyOptions) :=
  (detect_error_applicability fsOpenErr emptyOptions).1 Err.other rfl (by decide)

/-- C5: detection is a pure function of the filesystem snapshot, so two
runs against the same unchanged filesystem yield descriptors equal in
every field (and the same applicability outcome). -/
theorem detect_idempotent (fs : FS) (r1 r2 : (Bool × Option Err) × Options)
    (h1 : r1 = DetectGolang fs emptyOptions) (h2 : r2 = DetectGolang fs emptyOptions) :
    r1.2.CanonicalPath = r2.2.CanonicalPath ∧ r1.2.Directories = r2.2.Directories ∧
    r1.2.GoDirectories = r2.2.GoDirectories ∧ r1.2.SourceFiles = r2.2.SourceFiles ∧
    r1.2.GoSourceFiles = r2.2.GoSourceFiles ∧ r1.2.VersionPackage = r2.2.VersionPackage ∧
    r1.2.Commands = r2.2.Commands ∧ r1.1 = r2.1 := by
  subst h1
  subst h2
  exact ⟨rfl, rfl, rfl, rfl, rfl, rfl, rfl, rfl⟩

/-- A root with go.mod declaring module m where both pkg/version and
internal/version exist and nothing else does. -/
def fsBothVersion : FS :=
  { openGoMod := none
    readGoMod := Except.ok "module m"
    dirExists := fun d => Except.ok (d == "pkg/version" || d == "internal/version")
    readDir := fun _ => Except.ok []
    modulePath := fun _ => "m" }

theorem detect_idempotent_witness :
    (DetectGolang fsBothVersion emptyOptions).2.CanonicalPath =
      (DetectGolang fsBothVersion emptyOptions).2.CanonicalPath ∧
    (DetectGolang fsBothVersion emptyOptions).2.Directories =
      (DetectGolang fsBothVersion emptyOptions).2.Directories ∧
    (DetectGolang fsBothVersion emptyOptions).2.GoDirectories =
      (DetectGolang fsBothVersion emptyOptions).2.GoDirectories ∧
    (DetectGolang fsBothVersion emptyOptions).2.SourceFiles =
      (DetectGolang fsBothVersion emptyOptions).2.SourceFiles ∧
    (DetectGolang fsBothVersion emptyOptions).2.GoSourceFiles =
      (DetectGolang fsBothVersion emptyOptions).2.GoSourceFiles ∧
    (DetectGolang fsBothVersion emptyOptions).2.VersionPackage =
      (DetectGolang fsBothVersion emptyOptions).2.VersionPackage ∧
    (DetectGolang fsBothVersion emptyOptions).2.Commands =
      (DetectGolang fsBothVersion emptyOptions).2.Commands ∧
    (DetectGolang fsBothVersion emptyOptions).1 =
      (DetectGolang fsBothVersion emptyOptions).1 :=
  detect_idempotent fsBothVersion _ _ rfl rfl

/-- C3 counterexample: on a root where both version candidates exist, the
loop has no early exit, so the last existing candidate wins:
versionPackagePath is the join with internal/version, not with
pkg/version as the claim states. -/
theorem version_first_match_false :
    fsBothVersion.dirExists "pkg/version" = Except.ok true ∧
    fsBothVersion.dirExists "internal/version" = Except.ok true ∧
    (DetectGolang fsBothVersion emptyOptions).1 = (true, none) ∧
    (DetectGolang fsBothVersion emptyOptions).2.VersionPackage = "m/internal/version" ∧
    ¬ (DetectGolang fsBothVersion emptyOptions).2.VersionPackage =
        goPathJoin (fsBothVersion.modulePath "module m") "pkg/version" := by
  refine ⟨by decide, by decide, by decide, by decide, by decide⟩

/-- C3 (amended): the candidate list is checked in order and every
existing candidate (re)assigns versionPackagePath, so the last existing
candidate wins; in particular, when both candidate directories exist and
the run succeeds, versionPackagePath is canonicalIdentity joined with
internal/version. -/
theorem version_last_match_wins (fs : FS) (o0 : Options) (contents : String)
    (hopen : fs.openGoMod = none) (hread : fs.readGoMod = Except.ok contents)
    (hpv : fs.dirExists "pkg/version" = Except.ok true)
    (hiv : fs.dirExists "internal/version" = Except.ok true)
    (hsucc : (DetectGolang fs o0).1 = (true, none)) :
    (DetectGolang fs o0).2.VersionPackage =
      goPathJoin (fs.modulePath contents) "internal/version" := by
  have hD : DetectGolang fs o0 = ((true, (detectBody fs o0).2), (detectBody fs o0).1) := by
    unfold DetectGolang
    rw [hopen]
  have hE : (detectBody fs o0).2 = none := by
    rw [hD] at hsucc
    simpa using hsucc
  have hsteps : detectSteps fs contents o0 = ((detectBody fs o0).1, none) := by
    have hb : detectBody fs o0 = detectSteps fs contents o0 := by
      unfold detectBody
      rw [hread]
    rw [← hb, ← hE]
  unfold detectSteps at hsteps
  obtain ⟨o1, hs1, hrest1⟩ := andThen_ok hsteps
  obtain ⟨o2, hs2, hrest2⟩ := andThen_ok hrest1
  obtain ⟨o3, hs3, hrest3⟩ := andThen_ok hrest2
  obtain ⟨o4, hs4, hrest4⟩ := andThen_ok hrest3
  obtain ⟨o5, hs5, hrest5⟩ := andThen_ok hrest4
  obtain ⟨o6, hs6, hs7⟩ := andThen_ok hrest5
  have ho1 : o1 = { o0 with CanonicalPath := fs.modulePath contents } := by
    have h := congrArg Prod.fst hs1
    exact h.symm
  have hcan1 : o1.CanonicalPath = fs.modulePath contents := by
    rw [ho1]
  have hcan2 : o2.CanonicalPath = o1.CanonicalPath :=
    pres_out hs2 (step2Loop_pres Options.CanonicalPath fs (fun _ _ => rfl) convDirs)
  have hcan3 : o3.CanonicalPath = o2.CanonicalPath :=
    pres_out hs3 (stepFallback_pres Options.CanonicalPath fs (fun _ _ => rfl))
  have hcan4 : o4.CanonicalPath = o3.CanonicalPath :=
    pres_out hs4 (stepRootFiles_pres Options.CanonicalPath fs
      (fun o x => by unfold rootFileFold; split <;> rfl))
  have hcan5 : o5.CanonicalPath = o4.CanonicalPath :=
    pres_out hs5 (fun _ => rfl)
  have hv : stepVersion fs o5 =
      ({ o5 with VersionPackage := goPathJoin o5.CanonicalPath "internal/version" }, none) := by
    unfold stepVersion versionCandidates
    simp [versionLoop, hpv, hiv]
  have h6 : o6 = { o5 with VersionPackage := goPathJoin o5.CanonicalPath "internal/version" } := by
    rw [hv] at hs6
    injection hs6 with h61 h62
    exact h61.symm
  have hvp : (detectBody fs o0).1.VersionPackage = o6.VersionPackage :=
    pres_out hs7 (stepCommands_pres Options.VersionPackage fs
      (fun o x => by unfold commandFold; split <;> rfl))
  rw [hD]
  show (detectBody fs o0).1.VersionPackage = _
  rw [hvp, h6]
  show goPathJoin o5.CanonicalPath "internal/version" = _
  rw [hcan5, hcan4, hcan3, hcan2, hcan1]

theorem version_last_match_wins_witness :
    (DetectGolang fsBothVersion emptyOptions).2.VersionPackage =
      goPathJoin (fsBothVersion.modulePath "module m") "internal/version" :=
  version_last_match_wins fsBothVersion emptyOptions "module m" rfl rfl
    (by decide) (by decide) (by decide)

/-! ## The descriptor invariants -/

/-- The invariant maintained by every detection stage: the ecosystem
sequences are subsets of the generic ones, and every recorded ecosystem
root file is a Go file. -/
def Inv (o : Options) : Prop :=
  o.GoDirectories ⊆ o.Directories ∧ o.GoSourceFiles ⊆ o.SourceFiles ∧
  ∀ x ∈ o.GoSourceFiles, goHasSuffix x ".go" = true

theorem subset_snoc {α : Type} {l1 l2 : List α} (h : l1 ⊆ l2) (a : α) :
    l1 ++ [a] ⊆ l2 ++ [a] := by
  intro x hx
  rcases List.mem_append.mp hx with h1 | h1
  · exact List.mem_append_left _ (h h1)
  · exact List.mem_append_right _ h1

theorem foldl_inv {α : Type} (P : Options → Prop) (g : Options → α → Options)
    (h : ∀ o x, P o → P (g o x)) :
    ∀ (l : List α) (o : Options), P o → P (List.foldl g o l) := by
  intro l
  induction l with
  | nil => intro o ho; exact ho
  | cons x xs ih => intro o ho; rw [List.foldl_cons]; exact ih _ (h o x ho)

theorem andThen_inv {P : Options → Prop} {s1 s2 : DStep}
    (h1 : ∀ o, P o → P ((s1 o).1)) (h2 : ∀ o, P o → P ((s2 o).1)) :
    ∀ o, P o → P ((andThen s1 s2 o).1) := by
  intro o ho
  unfold andThen
  rcases h : s1 o with ⟨o1, e⟩
  have hp1 : P o1 := by
    have := h1 o ho
    rw [h] at this
    exact this
  cases e with
  | some e => exact hp1
  | none => exact h2 o1 hp1

theorem step2Loop_inv (fs : FS) :
    ∀ ds o, Inv o → Inv ((step2Loop fs ds o).1) := by
  intro ds
  induction ds with
  | nil => intro o ho; exact ho
  | cons d ds ih =>
    intro o ho
    unfold step2Loop
    rcases h : fs.dirExists d with e | b
    · exact ho
    · cases b with
      | false => exact ih o ho
      | true =>
        have hinv : Inv { o with Directories := o.Directories ++ [d],
                                 GoDirectories := o.GoDirectories ++ [d] } :=
          ⟨subset_snoc ho.1 d, ho.2.1, ho.2.2⟩
        exact ih _ hinv

theorem fallbackLoop_inv (fs : FS) :
    ∀ items o, Inv o → Inv ((fallbackLoop fs items o).1) := by
  intro items
  induction items with
  | nil => intro o ho; exact ho
  | cons item rest ih =>
    intro o ho
    unfold fallbackLoop
    cases hd : item.isDir with
    | false => simpa [hd] using ih o ho
    | true =>
      rcases h : hasGoFiles fs item.name with e | b
      · simpa [hd, h] using ho
      · cases b with
        | false => simpa [hd, h] using ih o ho
        | true =>
          have hinv : Inv { o with Directories := o.Directories ++ [item.name],
                                   GoDirectories := o.GoDirectories ++ [item.name] } :=
            ⟨subset_snoc ho.1 item.name, ho.2.1, ho.2.2⟩
          simpa [hd, h] using ih _ hinv

theorem stepFallback_inv (fs : FS) :
    ∀ o, Inv o → Inv ((stepFallback fs o).1) := by
  intro o ho
  unfold stepFallback
  cases he : o.GoDirectories.isEmpty with
  | false => simpa [he] using ho
  | true =>
    rcases h : fs.readDir "" with e | topLevel
    · simpa [he, h] using ho
    · simpa [he, h] using fallbackLoop_inv fs topLevel o ho

theorem rootFileFold_inv (o : Options) (x : Entry) (ho : Inv o) :
    Inv (rootFileFold o x) := by
  unfold rootFileFold
  split
  · next hguard =>
    refine ⟨ho.1, subset_snoc ho.2.1 x.name, ?_⟩
    intro y hy
    rcases List.mem_append.mp hy with h1 | h1
    · exact ho.2.2 y h1
    · rcases List.mem_singleton.mp h1 with rfl
      exact (Bool.and_eq_true _ _).mp hguard |>.2
  · exact ho

theorem stepRootFiles_inv (fs : FS) :
    ∀ o, Inv o → Inv ((stepRootFiles fs o).1) := by
  intro o ho
  unfold stepRootFiles
  rcases h : hasGoFiles fs "" with e | b
  · exact ho
  · cases b with
    | false => exact ho
    | true =>
      rcases h2 : fs.readDir "" with e | contents
      · exact ho
      · exact foldl_inv Inv rootFileFold rootFileFold_inv contents o ho

theorem stepGoModFiles_inv : ∀ o, Inv o → Inv ((stepGoModFiles o).1) := by
  intro o ho
  exact ⟨ho.1, ho.2.1.trans (List.subset_append_left _ _), ho.2.2⟩

theorem inv_of_pres {s : DStep}
    (h1 : Preserves Options.Directories s) (h2 : Preserves Options.GoDirectories s)
    (h3 : Preserves Options.SourceFiles s) (h4 : Preserves Options.GoSourceFiles s) :
    ∀ o, Inv o → Inv ((s o).1) := by
  intro o h
  unfold Inv at h ⊢
  rw [h1 o, h2 o, h3 o, h4 o]
  exact h

theorem stepVersion_inv (fs : FS) : ∀ o, Inv o → Inv ((stepVersion fs o).1) :=
  inv_of_pres
    (versionLoop_pres Options.Directories fs (fun _ _ => rfl) versionCandidates)
    (versionLoop_pres Options.GoDirectories fs (fun _ _ => rfl) versionCandidates)
    (versionLoop_pres Options.SourceFiles fs (fun _ _ => rfl) versionCandidates)
    (versionLoop_pres Options.GoSourceFiles fs (fun _ _ => rfl) versionCandidates)

theorem stepCommands_inv (fs : FS) : ∀ o, Inv o → Inv ((stepCommands fs o).1) :=
  inv_of_pres
    (stepCommands_pres Options.Directories fs (fun o x => by unfold commandFold; split <;> rfl))
    (stepCommands_pres Options.GoDirectories fs (fun o x => by unfold commandFold; split <;> rfl))
    (stepCommands_pres Options.SourceFiles fs (fun o x => by unfold commandFold; split <;> rfl))
    (stepCommands_pres Options.GoSourceFiles fs (fun o x => by unfold commandFold; split <;> rfl))

theorem detectSteps_inv (fs : FS) (contents : String) :
    ∀ o, Inv o → Inv ((detectSteps fs contents o).1) := by
  unfold detectSteps
  exact andThen_inv (fun o ho => ho)
    (andThen_inv (fun o ho => step2Loop_inv fs convDirs o ho)
      (andThen_inv (stepFallback_inv fs)
        (andThen_inv (stepRootFiles_inv fs)
          (andThen_inv stepGoModFiles_inv
            (andThen_inv (stepVersion_inv fs) (stepCommands_inv fs))))))

/-- C8: after every successful detection run from an empty descriptor,
GoDirectories is a subset of Directories and GoSourceFiles a subset of
SourceFiles; go.mod and go.sum are in SourceFiles but never in
GoSourceFiles; and Commands is empty whenever no cmd directory exists. -/
theorem detect_descriptor_invariants (fs : FS)
    (hsucc : (DetectGolang fs emptyOptions).1 = (true, none)) :
    (DetectGolang fs emptyOptions).2.GoDirectories ⊆
      (DetectGolang fs emptyOptions).2.Directories ∧
    (DetectGolang fs emptyOptions).2.GoSourceFiles ⊆
      (DetectGolang fs emptyOptions).2.SourceFiles ∧
    "go.mod" ∈ (DetectGolang fs emptyOptions).2.SourceFiles ∧
    "go.sum" ∈ (DetectGolang fs emptyOptions).2.SourceFiles ∧
    "go.mod" ∉ (DetectGolang fs emptyOptions).2.GoSourceFiles ∧
    "go.sum" ∉ (DetectGolang fs emptyOptions).2.GoSourceFiles ∧
    (fs.dirExists "cmd" = Except.ok false →
      (DetectGolang fs emptyOptions).2.Commands = []) := by
  have hopen : fs.openGoMod = none := by
    cases hh : fs.openGoMod with
    | none => rfl
    | some e =>
      by_cases he : e = Err.notExist
      · rw [detect_eq_notExist fs emptyOptions (he ▸ hh)] at hsucc
        simp at hsucc
      · rw [detect_eq_openErr fs emptyOptions e hh he] at hsucc
        simp at hsucc
  have hD : DetectGolang fs emptyOptions =
      ((true, (detectBody fs emptyOptions).2), (detectBody fs emptyOptions).1) := by
    unfold DetectGolang
    rw [hopen]
  have hE : (detectBody fs emptyOptions).2 = none := by
    rw [hD] at hsucc
    simpa using hsucc
  obtain ⟨contents, hread⟩ : ∃ c, fs.readGoMod = Except.ok c := by
    rcases hr : fs.readGoMod with e | c
    · exfalso
      have hb : detectBody fs emptyOptions = (emptyOptions, some e) := by
        unfold detectBody
        rw [hr]
      rw [hb] at hE
      simp at hE
    · exact ⟨c, rfl⟩
  have hsteps : detectSteps fs contents emptyOptions = ((detectBody fs emptyOptions).1, none) := by
    have hb : detectBody fs emptyOptions = detectSteps fs contents emptyOptions := by
      unfold detectBody
      rw [hread]
    rw [← hb, ← hE]
  have hInvEmpty : Inv emptyOptions := by
    unfold Inv
    refine ⟨?_, ?_, ?_⟩ <;> intro x hx <;> cases hx
  have hInvF : Inv ((detectBody fs emptyOptions).1) := by
    have h := detectSteps_inv fs contents emptyOptions hInvEmpty
    rw [hsteps] at h
    exact h
  have hsteps2 := hsteps
  unfold detectSteps at hsteps2
  obtain ⟨o1, hs1, hrest1⟩ := andThen_ok hsteps2
  obtain ⟨o2, hs2, hrest2⟩ := andThen_ok hrest1
  obtain ⟨o3, hs3, hrest3⟩ := andThen_ok hrest2
  obtain ⟨o4, hs4, hrest4⟩ := andThen_ok hrest3
  obtain ⟨o5, hs5, hrest5⟩ := andThen_ok hrest4
  obtain ⟨o6, hs6, hs7⟩ := andThen_ok hrest5
  have ho5 : o5 = { o4 with SourceFiles := o4.SourceFiles ++ ["go.mod", "go.sum"] } :=
    (congrArg Prod.fst hs5).symm
  have hmod5 : "go.mod" ∈ o5.SourceFiles := by rw [ho5]; simp
  have hsum5 : "go.sum" ∈ o5.SourceFiles := by rw [ho5]; simp
  have hsf6 : o6.SourceFiles = o5.SourceFiles :=
    pres_out hs6 (versionLoop_pres Options.SourceFiles fs (fun _ _ => rfl) versionCandidates)
  have hsfF : (detectBody fs emptyOptions).1.SourceFiles = o6.SourceFiles :=
    pres_out hs7 (stepCommands_pres Options.SourceFiles fs
      (fun o x => by unfold commandFold; split <;> rfl))
  have ho1 : o1 = { emptyOptions with CanonicalPath := fs.modulePath contents } :=
    (congrArg Prod.fst hs1).symm
  have hc1 : o1.Commands = [] := by rw [ho1]; rfl
  have hc2 : o2.Commands = o1.Commands :=
    pres_out hs2 (step2Loop_pres Options.Commands fs (fun _ _ => rfl) convDirs)
  have hc3 : o3.Commands = o2.Commands :=
    pres_out hs3 (stepFallback_pres Options.Commands fs (fun _ _ => rfl))
  have hc4 : o4.Commands = o3.Commands :=
    pres_out hs4 (stepRootFiles_pres Options.Commands fs
      (fun o x => by unfold rootFileFold; split <;> rfl))
  have hc5 : o5.Commands = o4.Commands := by rw [ho5]
  have hc6 : o6.Commands = o5.Commands :=
    pres_out hs6 (versionLoop_pres Options.Commands fs (fun _ _ => rfl) versionCandidates)
  have hcmds6 : o6.Commands = [] := by rw [hc6, hc5, hc4, hc3, hc2, hc1]
  rw [hD]
  refine ⟨hInvF.1, hInvF.2.1, ?_, ?_, ?_, ?_, ?_⟩
  · show "go.mod" ∈ (detectBody fs emptyOptions).1.SourceFiles
    rw [hsfF, hsf6]
    exact hmod5
  · show "go.sum" ∈ (detectBody fs emptyOptions).1.SourceFiles
    rw [hsfF, hsf6]
    exact hsum5
  · intro hmem
    have hsuf : goHasSuffix "go.mod" ".go" = true := hInvF.2.2 _ hmem
    exact absurd hsuf (by decide)
  · intro hmem
    have hsuf : goHasSuffix "go.sum" ".go" = true := hInvF.2.2 _ hmem
    exact absurd hsuf (by decide)
  · intro hcmd
    have hstep : stepCommands fs o6 = (o6, none) := by
      unfold stepCommands
      rw [hcmd]
    rw [hstep] at hs7
    have h1 : o6 = (detectBody fs emptyOptions).1 := by
      injection hs7
    show (detectBody fs emptyOptions).1.Commands = []
    rw [← h1]
    exact hcmds6

theorem detect_descriptor_invariants_witness :
    (DetectGolang fsBothVersion emptyOptions).2.GoDirectories ⊆
      (DetectGolang fsBothVersion emptyOptions).2.Directories ∧
    (DetectGolang fsBothVersion emptyOptions).2.GoSourceFiles ⊆
      (DetectGolang fsBothVersion emptyOptions).2.SourceFiles ∧
    "go.mod" ∈ (DetectGolang fsBothVersion emptyOptions).2.SourceFiles ∧
    "go.sum" ∈ (DetectGolang fsBothVersion emptyOptions).2.SourceFiles ∧
    "go.mod" ∉ (DetectGolang fsBothVersion emptyOptions).2.GoSourceFiles ∧
    "go.sum" ∉ (DetectGolang fsBothVersion emptyOptions).2.GoSourceFiles ∧
    (fsBothVersion.dirExists "cmd" = Except.ok false →
      (DetectGolang fsBothVersion emptyOptions).2.Commands = []) :=
  detect_descriptor_invariants fsBothVersion (by decide)

/-! ## Builder claims -/

def isToolchainN (n : Node) : Bool :=
  match n.kind with
  | NodeKind.toolchain => true
  | _ => false

def isAnalysisN (n : Node) : Bool :=
  match n.kind with
  | NodeKind.golangciLint => true
  | NodeKind.gofumpt => true
  | _ => false

def isLintN (n : Node) : Bool :=
  match n.kind with
  | NodeKind.lint => true
  | _ => false

def isBuildN (n : Node) : Bool :=
  match n.kind with
  | NodeKind.build _ _ => true
  | _ => false

def isImageN (n : Node) : Bool :=
  match n.kind with
  | NodeKind.image _ => true
  | _ => false

/-- The command loop constructs no toolchain, static-analysis or lint
aggregation node. -/
theorem buildCmds_kinds (t l u : Nat) :
    ∀ cs f, (buildCmds t l u f cs).filter isToolchainN = [] ∧
            (buildCmds t l u f cs).filter isAnalysisN = [] ∧
            (buildCmds t l u f cs).filter isLintN = [] := by
  intro cs
  induction cs with
  | nil => intro f; exact ⟨rfl, rfl, rfl⟩
  | cons c cs ih =>
    intro f
    have h := ih (f + 5)
    refine ⟨?_, ?_, ?_⟩ <;>
      simp [buildCmds, cmdNodes, List.filter_append, isToolchainN, isAnalysisN,
        isLintN, h.1, h.2.1, h.2.2]

/-- C7: every build invocation constructs exactly one toolchain node,
whose inputs are all provided upstream identities followed by the two
static-analysis nodes, and exactly one lint aggregation node, whose
inputs are the toolchain plus the two static-analysis nodes. -/
theorem build_toolchain_lint_unique (opts : Options) (upstream : List Nat) (f : Nat) :
    ((BuildGolang opts upstream f).1.1.filter isToolchainN) =
      [⟨f, NodeKind.toolchain, upstream ++ [f + 1, f + 2]⟩] ∧
    ((BuildGolang opts upstream f).1.1.filter isAnalysisN) =
      [⟨f + 1, NodeKind.golangciLint, []⟩, ⟨f + 2, NodeKind.gofumpt, []⟩] ∧
    ((BuildGolang opts upstream f).1.1.filter isLintN) =
      [⟨f + 3, NodeKind.lint, [f, f + 1, f + 2]⟩] := by
  have h := buildCmds_kinds f (f + 3) (f + 4) opts.Commands (f + 6)
  refine ⟨?_, ?_, ?_⟩ <;>
    simp [BuildGolang, mainNodes, List.filter_append, isToolchainN, isAnalysisN,
      isLintN, h.1, h.2.1, h.2.2]

/-- C10: the build operation cannot fail: the error component is always
absent and the output list always starts with the lint, unit-test and
coverage nodes, so it is never empty. -/
theorem build_never_fails (opts : Options) (upstream : List Nat) (f : Nat) :
    (BuildGolang opts upstream f).2 = none ∧
    (BuildGolang opts upstream f).1.2 ≠ [] ∧
    (BuildGolang opts upstream f).1.2.take 3 = [f + 3, f + 4, f + 5] ∧
    (⟨f + 3, NodeKind.lint, [f, f + 1, f + 2]⟩ : Node) ∈ (BuildGolang opts upstream f).1.1 ∧
    (⟨f + 4, NodeKind.unitTests, [f]⟩ : Node) ∈ (BuildGolang opts upstream f).1.1 ∧
    (⟨f + 5, NodeKind.codeCov "coverage.txt", [f + 4]⟩ : Node) ∈
      (BuildGolang opts upstream f).1.1 := by
  refine ⟨rfl, ?_, rfl, ?_, ?_, ?_⟩ <;> simp [BuildGolang, mainNodes]

/-- C2: with commands a then b, the outputs are lint, unit tests,
coverage, then the build/image pair of a followed by the build/image pair
of b; the only build/image nodes in the store are those four; each build
node's sole input is the toolchain node (identity f) and each image
node's inputs include its own build node and the shared lint node
(identity f+3). -/
theorem build_command_pairs (opts : Options) (upstream : List Nat) (f : Nat)
    (h : opts.Commands = ["a", "b"]) :
    (BuildGolang opts upstream f).1.2 =
      [f + 3, f + 4, f + 5, f + 6, f + 10, f + 11, f + 15] ∧
    ((BuildGolang opts upstream f).1.1.filter fun n => isBuildN n || isImageN n) =
      [⟨f + 6, NodeKind.build "a" (goFilepathJoin "cmd" "a"), [f]⟩,
       ⟨f + 10, NodeKind.image "a", [f + 6, f + 7, f + 8, f + 3, f + 9]⟩,
       ⟨f + 11, NodeKind.build "b" (goFilepathJoin "cmd" "b"), [f]⟩,
       ⟨f + 15, NodeKind.image "b", [f + 11, f + 12, f + 13, f + 3, f + 14]⟩] ∧
    ((BuildGolang opts upstream f).1.1.filter isToolchainN) =
      [⟨f, NodeKind.toolchain, upstream ++ [f + 1, f + 2]⟩] ∧
    ((BuildGolang opts upstream f).1.1.filter isLintN) =
      [⟨f + 3, NodeKind.lint, [f, f + 1, f + 2]⟩] := by
  refine ⟨?_, ?_, ?_, ?_⟩ <;>
    simp [BuildGolang, mainNodes, buildCmds, cmdNodes, cmdOutputs, h,
      List.filter_append, isToolchainN, isAnalysisN, isLintN, isBuildN, isImageN,
      Nat.add_assoc]

def optsAB : Options := { emptyOptions with Commands := ["a", "b"] }

theorem build_command_pairs_witness :
    (BuildGolang optsAB [] 0).1.2 = [0 + 3, 0 + 4, 0 + 5, 0 + 6, 0 + 10, 0 + 11, 0 + 15] ∧
    ((BuildGolang optsAB [] 0).1.1.filter fun n => isBuildN n || isImageN n) =
      [⟨0 + 6, NodeKind.build "a" (goFilepathJoin "cmd" "a"), [0]⟩,
       ⟨0 + 10, NodeKind.image "a", [0 + 6, 0 + 7, 0 + 8, 0 + 3, 0 + 9]⟩,
       ⟨0 + 11, NodeKind.build "b" (goFilepathJoin "cmd" "b"), [0]⟩,
       ⟨0 + 15, NodeKind.image "b", [0 + 11, 0 + 12, 0 + 13, 0 + 3, 0 + 14]⟩] ∧
    ((BuildGolang optsAB [] 0).1.1.filter isToolchainN) =
      [⟨0, NodeKind.toolchain, [] ++ [0 + 1, 0 + 2]⟩] ∧
    ((BuildGolang optsAB [] 0).1.1.filter isLintN) =
      [⟨0 + 3, NodeKind.lint, [0, 0 + 1, 0 + 2]⟩] :=
  build_command_pairs optsAB [] 0 rfl

/-! ## The dependency graph is a DAG -/

/-- Dependency edge of a node store: a points to b when some node with
identity a lists b among its inputs. -/
def EdgeTo (store : List Node) (a b : Nat) : Prop :=
  ∃ n, n ∈ store ∧ n.id = a ∧ b ∈ n.inputs

/-- No identity reaches itself through a nonempty chain of edges. -/
def Acyclic (store : List Node) : Prop :=
  ∀ a, ¬ Relation.TransGen (EdgeTo store) a a

theorem acyclic_of_rank (store : List Node) (r : Nat → Nat)
    (h : ∀ a b, EdgeTo store a b → r b < r a) : Acyclic store := by
  have key : ∀ a b, Relation.TransGen (EdgeTo store) a b → r b < r a := by
    intro a b hab
    induction hab with
    | single h1 => exact h _ _ h1
    | tail _ h2 ih => exact lt_trans (h _ _ h2) ih
  intro a ha
  exact lt_irrefl _ (key a a ha)

/-- Construction level of the node with identity f + k in a build
invocation starting at f: every edge of the constructed store either
leaves into the upstream identities or strictly decreases the level. -/
def level : Nat → Nat
  | 0 => 1
  | 1 => 0
  | 2 => 0
  | 3 => 2
  | 4 => 2
  | 5 => 3
  | k + 6 =>
    match k % 5 with
    | 0 => 2
    | 1 => 0
    | 2 => 0
    | 3 => 3
    | _ => 4

theorem level_blk0 (i : Nat) : level (5 * i + 6) = 2 := by
  have h2 : (5 * i) % 5 = 0 := Nat.mul_mod_right 5 i
  simp [level, h2]

theorem level_blk1 (i : Nat) : level (5 * i + 7) = 0 := by
  have h : 5 * i + 7 = (5 * i + 1) + 6 := by omega
  have h2 : (5 * i + 1) % 5 = 1 := by omega
  rw [h]
  simp [level, h2]

theorem level_blk2 (i : Nat) : level (5 * i + 8) = 0 := by
  have h : 5 * i + 8 = (5 * i + 2) + 6 := by omega
  have h2 : (5 * i + 2) % 5 = 2 := by omega
  rw [h]
  simp [level, h2]

theorem level_blk3 (i : Nat) : level (5 * i + 9) = 3 := by
  have h : 5 * i + 9 = (5 * i + 3) + 6 := by omega
  have h2 : (5 * i + 3) % 5 = 3 := by omega
  rw [h]
  simp [level, h2]

theorem level_blk4 (i : Nat) : level (5 * i + 10) = 4 := by
  have h : 5 * i + 10 = (5 * i + 4) + 6 := by omega
  have h2 : (5 * i + 4) % 5 = 4 := by omega
  rw [h]
  simp [level, h2]

/-- Every node of the command loop is one of the five nodes of the block
of some command of the list. -/
theorem buildCmds_shape (t l u : Nat) :
    ∀ (cs : List String) (f : Nat) (n : Node), n ∈ buildCmds t l u f cs →
    ∃ i c, cs[i]? = some c ∧
      (n = ⟨f + 5 * i, NodeKind.build c (goFilepathJoin "cmd" c), [t]⟩ ∨
       n = ⟨f + 5 * i + 1, NodeKind.fhs, []⟩ ∨
       n = ⟨f + 5 * i + 2, NodeKind.caCerts, []⟩ ∨
       n = ⟨f + 5 * i + 3, NodeKind.drone, [u]⟩ ∨
       n = ⟨f + 5 * i + 4, NodeKind.image c,
            [f + 5 * i, f + 5 * i + 1, f + 5 * i + 2, l, f + 5 * i + 3]⟩) := by
  intro cs
  induction cs with
  | nil => intro f n hn; simp [buildCmds] at hn
  | cons c cs ih =>
    intro f n hn
    simp only [buildCmds] at hn
    rcases List.mem_append.mp hn with h1 | h1
    · refine ⟨0, c, by simp, ?_⟩
      simp only [cmdNodes, List.mem_cons, List.not_mem_nil, or_false] at h1
      simpa [Nat.mul_zero, Nat.add_zero] using h1
    · obtain ⟨i, c2, hget, hsh⟩ := ih (f + 5) n h1
      refine ⟨i + 1, c2, by simpa using hget, ?_⟩
      have e : f + 5 + 5 * i = f + 5 * (i + 1) := by ring
      rw [e] at hsh
      exact hsh

theorem buildCmds_id_bound (t l u : Nat) :
    ∀ cs f, ∀ n ∈ buildCmds t l u f cs, f ≤ n.id ∧ n.id < f + 5 * cs.length := by
  intro cs f n hn
  obtain ⟨i, c, hget, hsh⟩ := buildCmds_shape t l u cs f n hn
  have hi : i < cs.length := by
    by_contra hc
    rw [List.getElem?_eq_none (by omega)] at hget
    cases hget
  rcases hsh with h | h | h | h | h <;> subst h <;> dsimp only <;> omega

theorem cmdNodes_id_bound (f t l u : Nat) (c : String) :
    ∀ m ∈ cmdNodes f t l u c, f ≤ m.id ∧ m.id ≤ f + 4 := by
  intro m hm
  simp only [cmdNodes, List.mem_cons, List.not_mem_nil, or_false] at hm
  rcases hm with h | h | h | h | h <;> subst h <;> dsimp only <;> omega

theorem buildCmds_sorted (t l u : Nat) :
    ∀ cs f, List.Pairwise (fun m n => m.id < n.id) (buildCmds t l u f cs) := by
  intro cs
  induction cs with
  | nil => intro f; simp [buildCmds]
  | cons c cs ih =>
    intro f
    simp only [buildCmds]
    refine List.pairwise_append.mpr ⟨?_, ih (f + 5), ?_⟩
    · simp [cmdNodes, List.pairwise_cons]
    · intro m hm n hn
      have h1 := cmdNodes_id_bound f t l u c m hm
      have h2 := (buildCmds_id_bound t l u cs (f + 5) n hn).1
      omega

theorem mainNodes_sorted (upstream : List Nat) (f : Nat) :
    List.Pairwise (fun m n => m.id < n.id) (mainNodes upstream f) := by
  simp [mainNodes, List.pairwise_cons]

theorem bstore_sorted (opts : Options) (upstream : List Nat) (f : Nat) :
    List.Pairwise (fun m n => m.id < n.id) (BuildGolang opts upstream f).1.1 := by
  show List.Pairwise _
    (mainNodes upstream f ++ buildCmds f (f + 3) (f + 4) (f + 6) opts.Commands)
  refine List.pairwise_append.mpr
    ⟨mainNodes_sorted upstream f, buildCmds_sorted _ _ _ opts.Commands (f + 6), ?_⟩
  intro m hm n hn
  have h2 := (buildCmds_id_bound f (f + 3) (f + 4) opts.Commands (f + 6) n hn).1
  have h1 : m.id ≤ f + 5 := by
    simp only [mainNodes, List.mem_cons, List.not_mem_nil, or_false] at hm
    rcases hm with h | h | h | h | h | h <;> subst h <;> dsimp only <;> omega
  omega

theorem cmdNodes_subset_buildCmds (t l u : Nat) :
    ∀ (cs : List String) (f i : Nat) (c : String), cs[i]? = some c →
      ∀ m ∈ cmdNodes (f + 5 * i) t l u c, m ∈ buildCmds t l u f cs := by
  intro cs
  induction cs with
  | nil => intro f i c h; simp at h
  | cons c0 cs ih =>
    intro f i c h m hm
    cases i with
    | zero =>
      simp at h
      subst h
      simp only [buildCmds]
      refine List.mem_append.mpr (Or.inl ?_)
      simpa using hm
    | succ i =>
      simp at h
      simp only [buildCmds]
      refine List.mem_append.mpr (Or.inr ?_)
      have e : f + 5 * (i + 1) = (f + 5) + 5 * i := by ring
      rw [e] at hm
      exact ih (f + 5) i c h m hm

/-- Every node of the constructed store has identity at least f, and each
of its inputs is a provided upstream identity or the identity of another
constructed node of strictly smaller level. -/
theorem bstore_edges (opts : Options) (ups : List Nat) (f : Nat) :
    ∀ n ∈ (BuildGolang opts ups f).1.1, f ≤ n.id ∧
      ∀ b ∈ n.inputs,
        b ∈ ups ∨
        (f ≤ b ∧ level (b - f) < level (n.id - f) ∧
          ∃ m ∈ (BuildGolang opts ups f).1.1, m.id = b) := by
  intro n hn
  have hn2 : n ∈ mainNodes ups f ++ buildCmds f (f + 3) (f + 4) (f + 6) opts.Commands := hn
  rcases List.mem_append.mp hn2 with h1 | h1
  · simp only [mainNodes, List.mem_cons, List.not_mem_nil, or_false] at h1
    rcases h1 with h | h | h | h | h | h <;> subst h <;> dsimp only
    · refine ⟨by omega, ?_⟩
      intro b hb
      rcases List.mem_append.mp hb with hu | hio
      · exact Or.inl hu
      · simp only [List.mem_cons, List.not_mem_nil, or_false] at hio
        rcases hio with rfl | rfl
        · refine Or.inr ⟨by omega, ?_,
            ⟨⟨f + 1, NodeKind.golangciLint, []⟩, by simp [BuildGolang, mainNodes], rfl⟩⟩
          have e1 : f + 1 - f = 1 := by omega
          have e2 : f - f = 0 := by omega
          rw [e1, e2]
          decide
        · refine Or.inr ⟨by omega, ?_,
            ⟨⟨f + 2, NodeKind.gofumpt, []⟩, by simp [BuildGolang, mainNodes], rfl⟩⟩
          have e1 : f + 2 - f = 2 := by omega
          have e2 : f - f = 0 := by omega
          rw [e1, e2]
          decide
    · refine ⟨by omega, ?_⟩
      intro b hb
      simp at hb
    · refine ⟨by omega, ?_⟩
      intro b hb
      simp at hb
    · refine ⟨by omega, ?_⟩
      intro b hb
      simp only [List.mem_cons, List.not_mem_nil, or_false] at hb
      rcases hb with h | h | h
      · rw [h]
        refine Or.inr ⟨by omega, ?_,
          ⟨⟨f, NodeKind.toolchain, ups ++ [f + 1, f + 2]⟩, by simp [BuildGolang, mainNodes], rfl⟩⟩
        have e1 : f - f = 0 := by omega
        have e2 : f + 3 - f = 3 := by omega
        rw [e1, e2]
        decide
      · rw [h]
        refine Or.inr ⟨by omega, ?_,
          ⟨⟨f + 1, NodeKind.golangciLint, []⟩, by simp [BuildGolang, mainNodes], rfl⟩⟩
        have e1 : f + 1 - f = 1 := by omega
        have e2 : f + 3 - f = 3 := by omega
        rw [e1, e2]
        decide
      · rw [h]
        refine Or.inr ⟨by omega, ?_,
          ⟨⟨f + 2, NodeKind.gofumpt, []⟩, by simp [BuildGolang, mainNodes], rfl⟩⟩
        have e1 : f + 2 - f = 2 := by omega
        have e2 : f + 3 - f = 3 := by omega
        rw [e1, e2]
        decide
    · refine ⟨by omega, ?_⟩
      intro b hb
      simp only [List.mem_cons, List.not_mem_nil, or_false] at hb
      rw [hb]
      refine Or.inr ⟨by omega, ?_,
        ⟨⟨f, NodeKind.toolchain, ups ++ [f + 1, f + 2]⟩, by simp [BuildGolang, mainNodes], rfl⟩⟩
      have e1 : f - f = 0 := by omega
      have e2 : f + 4 - f = 4 := by omega
      rw [e1, e2]
      decide
    · refine ⟨by omega, ?_⟩
      intro b hb
      simp only [List.mem_cons, List.not_mem_nil, or_false] at hb
      subst hb
      refine Or.inr ⟨by omega, ?_,
        ⟨⟨f + 4, NodeKind.unitTests, [f]⟩, by simp [BuildGolang, mainNodes], rfl⟩⟩
      have e1 : f + 4 - f = 4 := by omega
      have e2 : f + 5 - f = 5 := by omega
      rw [e1, e2]
      decide
  · obtain ⟨i, c, hget, hsh⟩ := buildCmds_shape f (f + 3) (f + 4) opts.Commands (f + 6) n h1
    have hblk : ∀ m ∈ cmdNodes (f + 6 + 5 * i) f (f + 3) (f + 4) c,
        m ∈ (BuildGolang opts ups f).1.1 := by
      intro m hm
      exact List.mem_append.mpr (Or.inr
        (cmdNodes_subset_buildCmds f (f + 3) (f + 4) opts.Commands (f + 6) i c hget m hm))
    rcases hsh with h | h | h | h | h <;> subst h <;> dsimp only
    · refine ⟨by omega, ?_⟩
      intro b hb
      simp only [List.mem_cons, List.not_mem_nil, or_false] at hb
      rw [hb]
      refine Or.inr ⟨by omega, ?_,
        ⟨⟨f, NodeKind.toolchain, ups ++ [f + 1, f + 2]⟩, by simp [BuildGolang, mainNodes], rfl⟩⟩
      have e1 : f - f = 0 := by omega
      have e2 : f + 6 + 5 * i - f = 5 * i + 6 := by omega
      rw [e1, e2, level_blk0]
      decide
    · refine ⟨by omega, ?_⟩
      intro b hb
      simp at hb
    · refine ⟨by omega, ?_⟩
      intro b hb
      simp at hb
    · refine ⟨by omega, ?_⟩
      intro b hb
      simp only [List.mem_cons, List.not_mem_nil, or_false] at hb
      subst hb
      refine Or.inr ⟨by omega, ?_,
        ⟨⟨f + 4, NodeKind.unitTests, [f]⟩, by simp [BuildGolang, mainNodes], rfl⟩⟩
      have e1 : f + 4 - f = 4 := by omega
      have e2 : f + 6 + 5 * i + 3 - f = 5 * i + 9 := by omega
      rw [e1, e2, level_blk3]
      decide
    · refine ⟨by omega, ?_⟩
      intro b hb
      simp only [List.mem_cons, List.not_mem_nil, or_false] at hb
      have e2 : f + 6 + 5 * i + 4 - f = 5 * i + 10 := by omega
      rcases hb with rfl | rfl | rfl | rfl | rfl
      · refine Or.inr ⟨by omega, ?_,
          ⟨⟨f + 6 + 5 * i, NodeKind.build c (goFilepathJoin "cmd" c), [f]⟩,
            hblk _ (by simp [cmdNodes]), rfl⟩⟩
        have e1 : f + 6 + 5 * i - f = 5 * i + 6 := by omega
        rw [e1, e2, level_blk0, level_blk4]
        decide
      · refine Or.inr ⟨by omega, ?_,
          ⟨⟨f + 6 + 5 * i + 1, NodeKind.fhs, []⟩, hblk _ (by simp [cmdNodes]), rfl⟩⟩
        have e1 : f + 6 + 5 * i + 1 - f = 5 * i + 7 := by omega
        rw [e1, e2, level_blk1, level_blk4]
        decide
      · refine Or.inr ⟨by omega, ?_,
          ⟨⟨f + 6 + 5 * i + 2, NodeKind.caCerts, []⟩, hblk _ (by simp [cmdNodes]), rfl⟩⟩
        have e1 : f + 6 + 5 * i + 2 - f = 5 * i + 8 := by omega
        rw [e1, e2, level_blk2, level_blk4]
        decide
      · refine Or.inr ⟨by omega, ?_,
          ⟨⟨f + 3, NodeKind.lint, [f, f + 1, f + 2]⟩, by simp [BuildGolang, mainNodes], rfl⟩⟩
        have e1 : f + 3 - f = 3 := by omega
        rw [e1, e2, level_blk4]
        decide
      · refine Or.inr ⟨by omega, ?_,
          ⟨⟨f + 6 + 5 * i + 3, NodeKind.drone, [f + 4]⟩, hblk _ (by simp [cmdNodes]), rfl⟩⟩
        have e1 : f + 6 + 5 * i + 3 - f = 5 * i + 9 := by omega
        rw [e1, e2, level_blk3, level_blk4]
        decide

/-- C6: given fresh identities (upstream identities and upstream nodes
below f) and an acyclic upstream graph, the upstream store extended by the
constructed store has pairwise distinct node identities and no cycle
through inputs edges, and every input of a constructed node is either a
provided upstream identity or the identity of a node constructed in the
same invocation. -/
theorem build_graph_dag (opts : Options) (ups : List Nat) (f : Nat)
    (ustore : List Node) (ru : Nat → Nat)
    (hups : ∀ u ∈ ups, u < f)
    (hust : ∀ n ∈ ustore, n.id < f ∧ ∀ b ∈ n.inputs, b < f)
    (hupw : List.Pairwise (fun m n => m.id ≠ n.id) ustore)
    (hua : ∀ a b, EdgeTo ustore a b → ru b < ru a) :
    List.Pairwise (fun m n => m.id ≠ n.id) (ustore ++ (BuildGolang opts ups f).1.1) ∧
    Acyclic (ustore ++ (BuildGolang opts ups f).1.1) ∧
    (∀ n ∈ (BuildGolang opts ups f).1.1, ∀ b ∈ n.inputs,
      b ∈ ups ∨ ∃ m ∈ (BuildGolang opts ups f).1.1, m.id = b) := by
  refine ⟨?_, ?_, ?_⟩
  · refine List.pairwise_append.mpr ⟨hupw, ?_, ?_⟩
    · exact (bstore_sorted opts ups f).imp (fun h => Nat.ne_of_lt h)
    · intro m hm n hn
      have h1 := (hust m hm).1
      have h2 := (bstore_edges opts ups f n hn).1
      omega
  · apply acyclic_of_rank _
      (fun a => if a < f then ru a else ((Finset.range f).sup ru) + 1 + level (a - f))
    intro a b hedge
    obtain ⟨n, hn, hna, hb⟩ := hedge
    rcases List.mem_append.mp hn with hU | hB
    · have h1 := hust n hU
      have hbf : b < f := h1.2 b hb
      have haf : a < f := by rw [← hna]; exact h1.1
      have hra := hua a b ⟨n, hU, hna, hb⟩
      simp only [if_pos hbf, if_pos haf]
      exact hra
    · have he := bstore_edges opts ups f n hB
      have haf : f ≤ a := by rw [← hna]; exact he.1
      rcases he.2 b hb with hu | ⟨hbf, hlev, _⟩
      · have hbf : b < f := hups b hu
        have hru : ru b ≤ (Finset.range f).sup ru :=
          Finset.le_sup (Finset.mem_range.mpr hbf)
        simp only [if_pos hbf, if_neg (by omega : ¬ a < f)]
        omega
      · rw [hna] at hlev
        simp only [if_neg (by omega : ¬ b < f), if_neg (by omega : ¬ a < f)]
        omega
  · intro n hn b hb
    rcases (bstore_edges opts ups f n hn).2 b hb with hu | ⟨_, _, hm⟩
    · exact Or.inl hu
    · exact Or.inr hm

theorem build_graph_dag_witness :
    List.Pairwise (fun m n => m.id ≠ n.id) ([] ++ (BuildGolang optsAB [] 0).1.1) ∧
    Acyclic ([] ++ (BuildGolang optsAB [] 0).1.1) ∧
    (∀ n ∈ (BuildGolang optsAB [] 0).1.1, ∀ b ∈ n.inputs,
      b ∈ ([] : List Nat) ∨ ∃ m ∈ (BuildGolang optsAB [] 0).1.1, m.id = b) :=
  build_graph_dag optsAB [] 0 [] (fun _ => 0)
    (by intro u hu; cases hu)
    (by intro n hn; cases hn)
    List.Pairwise.nil
    (by intro a b h; obtain ⟨n, hn, _⟩ := h; cases hn)

end Kres
